import Mathlib

/-!
Shallow embedding of the coded-aperture code-search engine found in
`src/jeweler/search.py` (the legacy module: `cost_function`,
`find_codes_lyndon`, `find_codes_bfs`) and `src/src/jeweler/search.py`
(the current module: `lyndon`, `bfs`, `bracelet`, `_necklace_chunk`,
`necklace`).

Modelling conventions:

* a binary code is a `List Bool`; its weight is the count of `true` bits;
* floating-point scores are idealised as rationals; the running best score
  is initialised to `-np.inf`, modelled by `⊥ : WithBot ℚ`;
* the objective function (in the source a NumPy DFT computation
  `min |rfft| - var`, which the spec treats as an opaque external scoring
  capability) is a parameter `f : Code → ℚ`; drivers apply it elementwise,
  matching the spec requirement that for a batch, `score[i]` corresponds to
  `batch[i]`;
* the external combinatorial generators (`jeweler.lyndon`,
  `jeweler.bracelet`, `sage.all.Necklaces` — none of their sources are under
  `src/`) are modelled as parameters supplying the finite stream of
  generated words or codes, exactly as the spec describes them: externally
  supplied lazy sequence producers;
* `np.argmax` returns the index of the first maximal entry of the score
  vector; the drivers use that index only to select `codes[best]` and
  `scores[best]`, so the embedding fuses index computation and selection
  into `argmaxFrom`, which returns the (code, score) pair sitting at the
  first maximal score;
* file and archiver writes are recorded as explicit event lists in the
  returned state, so that persistence behaviour is observable.
-/

namespace Jeweler

/-- A binary code: an ordered sequence of bits. -/
abbrev Code := List Bool

/-- Weight of a code: the number of one bits (`np.sum(code)` for a 0/1 list). -/
def weight (c : Code) : ℕ := c.count true

/-- Python `int()` applied to a rational number: truncation toward zero.
Used for `int(L * density)` and `int(n * density)` in all drivers. -/
def pyInt (q : ℚ) : ℤ := if 0 ≤ q then ⌊q⌋ else ⌈q⌉

/-- Enumeration of `itertools.combinations(xs, k)`: all length-`k`
sublists of `xs`, in lexicographic order over the chosen positions
(combinations containing the head come first, in head order). -/
def combosAux : List ℕ → ℕ → List (List ℕ)
  | _, 0 => [[]]
  | [], _ + 1 => []
  | x :: xs, k + 1 => (combosAux xs k).map (fun l => x :: l) ++ combosAux xs (k + 1)

/-- `itertools.combinations(range(L), k)` : the index tuples of the ones,
in lexicographic order. -/
def combinations (L k : ℕ) : List (List ℕ) := combosAux (List.range L) k

/-- Conversion of a tuple of one-positions into a binary code of length `L`
(`codes[rows, indices] = 1` on a zero array in the source). -/
def indicesToCode (L : ℕ) (l : List ℕ) : Code :=
  (List.range L).map (fun i => decide (i ∈ l))

/-- Fused embedding of `best = np.argmax(score)` followed by the lookups
`codes[best]` / `score[best]`: scanning left to right with a strict
comparison keeps the FIRST maximal entry, exactly as `np.argmax` does; the
returned pair is the selected code together with its score. -/
def argmaxFrom : Code → ℚ → List (Code × ℚ) → Code × ℚ
  | bc, bs, [] => (bc, bs)
  | bc, bs, (c, sc) :: rest =>
    if bs < sc then argmaxFrom c sc rest else argmaxFrom bc bs rest

/-- Per-length best tracker of the batch drivers (`code_best`, `score_best`),
with a ghost counter of how many strict improvements were accepted. -/
structure BatchBest where
  codeBest : Option Code
  scoreBest : WithBot ℚ
  improvements : ℕ
deriving DecidableEq

/-- One scored batch in `bracelet` / `necklace` (and structurally in `bfs`):
score the batch, take the first-maximum entry, and replace the best record
iff it is a strict improvement.  `np.argmax` raises on an empty score
vector, so an empty batch yields `none` (the per-length search dies). -/
def batchUpdate (f : Code → ℚ) (batch : List Code) (s : BatchBest) : Option BatchBest :=
  match batch with
  | [] => none
  | c0 :: rest =>
    let best := argmaxFrom c0 (f c0) (rest.map (fun c => (c, f c)))
    some (if s.scoreBest < ((best.2 : ℚ) : WithBot ℚ) then
      { codeBest := some best.1
        scoreBest := ((best.2 : ℚ) : WithBot ℚ)
        improvements := s.improvements + 1 }
    else s)

/-- State of `bfs` / `find_codes_bfs`: best code and score, running count of
searched codes, and the file-dump events (searched count at the time of the
write, together with the dumped code). -/
structure BfsState where
  codeBest : Option Code
  scoreBest : WithBot ℚ
  numSearched : ℕ
  writes : List (ℕ × Code)
deriving DecidableEq

/-- Processing of one non-empty batch in `bfs` / `find_codes_bfs`: add the
batch size to `num_searched_codes`, score every code of the batch, take the
first maximum (`np.argmax`), and on a strict improvement replace
`code_best` / `score_best` and dump the new best (together with the searched
count) to the output file when a filename was given. -/
def bfsBatch (f : Code → ℚ) (filename : Option String) (codes : List Code)
    (s : BfsState) : BfsState :=
  match codes with
  | [] => s
  | c0 :: rest =>
    let s1 : BfsState := { s with numSearched := s.numSearched + (c0 :: rest).length }
    let best := argmaxFrom c0 (f c0) (rest.map (fun c => (c, f c)))
    if s.scoreBest < ((best.2 : ℚ) : WithBot ℚ) then
      { s1 with
        codeBest := some best.1
        scoreBest := ((best.2 : ℚ) : WithBot ℚ)
        writes :=
          if filename.isSome then s1.writes ++ [(s1.numSearched, best.1)]
          else s1.writes }
    else s1

/-- Loop of `bfs` (and of the identical legacy `find_codes_bfs`): `n`
remaining iterations of `for i in range(num_batches)`; each iteration slices
up to `m` index tuples off the generator, breaks if none are left, converts
them to codes and hands the batch to `bfsBatch`. -/
def bfsLoop (f : Code → ℚ) (L m : ℕ) (filename : Option String) :
    ℕ → List (List ℕ) → BfsState → BfsState
  | 0, _, s => s
  | n + 1, gen, s =>
    if gen.take m = [] then s
    else
      bfsLoop f L m filename n (gen.drop m)
        (bfsBatch f filename ((gen.take m).map (indicesToCode L)) s)

/-- The brute-force driver `bfs(L, density, batch_size, filename)` of
`src/src/jeweler/search.py` (identical search logic to the legacy
`find_codes_bfs`).  `num_combinations` is the factorial quotient written in
the source; `num_codes_in_batch = max(batch_size // L, 1)` uses Python floor
division; `num_batches = ceil(num_combinations / num_codes_in_batch)` is the
exact ceiling the source computes through float `np.ceil`.  The scoring step
(`min |rfft| - var`) is the opaque objective parameter `f`. -/
def bfs (f : Code → ℚ) (L : ℕ) (density : ℚ) (batch_size : ℤ)
    (filename : Option String) : BfsState :=
  let k := (pyInt ((L : ℚ) * density)).toNat
  let gen := combinations L k
  let num_combinations := Nat.factorial L / (Nat.factorial k * Nat.factorial (L - k))
  let m := (max (Int.fdiv batch_size (L : ℤ)) 1).toNat
  let num_batches := (num_combinations + m - 1) / m
  bfsLoop f L m filename num_batches gen ⟨none, ⊥, 0, []⟩

/-- One call `handle.update(objective_name, code, score, weight=...)` as the
drivers issue it.  Modelled from the spec: the Archiver (`jeweler.io`, not
under `src/`) exposes `update(objective_name, code, score, weight,
searched_count)`; the `searchedCount` field is an `Option` so that call
sites that omit the argument record `none`. -/
structure ArchiveUpdate where
  objectiveName : String
  code : Option Code
  score : WithBot ℚ
  weight : ℕ
  searchedCount : Option ℕ
deriving DecidableEq

/-- State of the `lyndon` driver: per-length best scores (`score_best`,
`-inf`-initialised), per-length searched counts, the trace of codes actually
passed to the objective, and the archiver update events in order. -/
structure LyndonState where
  scoreBest : ℕ → WithBot ℚ
  numSearched : ℕ → ℕ
  scored : List Code
  updates : List ArchiveUpdate

/-- Processing of one generated word by `lyndon`: words shorter than `K` or
with weight different from `num_allowed_ones[len(code)]` are skipped; a kept
word is counted and scored, and a strict improvement immediately issues
`f.update(objective_function.__name__, code, score, weight=...)`. -/
def lyndonStep (K : ℕ) (allowed : ℕ → ℕ) (objName : String) (f : Code → ℚ)
    (s : LyndonState) (w : Code) : LyndonState :=
  if K ≤ w.length ∧ weight w = allowed w.length then
    let s1 : LyndonState :=
      { s with
        numSearched := Function.update s.numSearched w.length (s.numSearched w.length + 1)
        scored := s.scored ++ [w] }
    let score := f w
    if s.scoreBest w.length < ((score : ℚ) : WithBot ℚ) then
      { s1 with
        scoreBest := Function.update s1.scoreBest w.length ((score : ℚ) : WithBot ℚ)
        updates := s1.updates ++ [⟨objName, some w, ((score : ℚ) : WithBot ℚ), allowed w.length, none⟩] }
    else s1
  else s

/-- The `lyndon` driver of `src/src/jeweler/search.py`.  `outputDir` is only
handed to the `Archiver` constructor and never influences the search;
`stream` is the word sequence produced by the external generator
`LengthLimitedLyndonWords(2, L, w)` seeded at the maximal word of the target
weight; `allowed` is `num_allowed_ones`, the table `int(n * density)`. -/
def lyndonRun (K L : ℕ) (outputDir : String) (objName : String) (f : Code → ℚ)
    (density : ℚ) (stream : List Code) : LyndonState :=
  let allowed : ℕ → ℕ := fun n => (pyInt ((n : ℚ) * density)).toNat
  stream.foldl (lyndonStep K allowed objName f) ⟨fun _ => ⊥, fun _ => 0, [], []⟩

/-- One file write of the legacy `find_codes_lyndon`: the per-length output
file, the searched count at the time of the write, the code and its score. -/
structure FileWrite where
  filename : String
  searchedCount : ℕ
  code : Code
  score : ℚ
deriving DecidableEq

/-- State of the legacy `find_codes_lyndon` driver. -/
structure LegacyLyndonState where
  scoreBest : ℕ → WithBot ℚ
  numSearched : ℕ → ℕ
  scored : List Code
  writes : List FileWrite

/-- Processing of one generated word by the legacy `find_codes_lyndon`:
identical filter, counting and strict-improvement rule as `lyndonStep`, but
an improvement overwrites the per-length file `{len}.txt` directly instead
of calling the archiver. -/
def legacyLyndonStep (K : ℕ) (allowed : ℕ → ℕ) (outputDir : String) (f : Code → ℚ)
    (s : LegacyLyndonState) (w : Code) : LegacyLyndonState :=
  if K ≤ w.length ∧ weight w = allowed w.length then
    let s1 : LegacyLyndonState :=
      { s with
        numSearched := Function.update s.numSearched w.length (s.numSearched w.length + 1)
        scored := s.scored ++ [w] }
    let score := f w
    if s.scoreBest w.length < ((score : ℚ) : WithBot ℚ) then
      { s1 with
        scoreBest := Function.update s1.scoreBest w.length ((score : ℚ) : WithBot ℚ)
        writes := s1.writes ++
          [⟨outputDir ++ "/" ++ toString w.length ++ ".txt",
            s.numSearched w.length + 1, w, score⟩] }
    else s1
  else s

/-- The legacy `find_codes_lyndon` driver of `src/jeweler/search.py`.  The
objective is the module's `cost_function` (a NumPy DFT computation),
abstracted as the opaque parameter `f`; the generator invocation
`LengthLimitedLyndonWords(2, L, w)` is built from the same seed formula as
in `lyndon`, so the same external generator output `stream` feeds both. -/
def legacyLyndonRun (K L : ℕ) (outputDir : String) (f : Code → ℚ)
    (density : ℚ) (stream : List Code) : LegacyLyndonState :=
  let allowed : ℕ → ℕ := fun n => (pyInt ((n : ℚ) * density)).toNat
  stream.foldl (legacyLyndonStep K allowed outputDir f) ⟨fun _ => ⊥, fun _ => 0, [], []⟩

/-- One iteration of the `bracelet` batch loop: `batch = codes[-batch_size:]`
then `del codes[-batch_size:]` (consumption from the back; Python slicing
with `-0` takes the whole list, hence the `b = 0` branch), then the scored
strict-improvement argmax update.  `none` signals the `np.argmax` exception
on an empty batch. -/
def braceletStep (f : Code → ℚ) (b : ℕ) (codes : List Code) (s : BatchBest) :
    Option (List Code × BatchBest) :=
  let batch := if b = 0 then codes else codes.drop (codes.length - b)
  let rest := if b = 0 then [] else codes.take (codes.length - b)
  (batchUpdate f batch s).map (fun s2 => (rest, s2))

/-- The `bracelet` per-length loop runs exactly
`len(codes) // batch_size + 1` iterations (`n` counts them down). -/
def braceletLoop (f : Code → ℚ) (b : ℕ) : ℕ → List Code → BatchBest → Option BatchBest
  | 0, _, s => some s
  | n + 1, codes, s =>
    match braceletStep f b codes s with
    | none => none
    | some (rest, s2) => braceletLoop f b n rest s2

/-- Search of one length in `bracelet`: the generated bracelet list is
consumed from the back in `len(codes) // batch_size + 1` batch iterations
starting from `code_best = None`, `score_best = -inf`. -/
def braceletLength (f : Code → ℚ) (b : ℕ) (codes : List Code) : Option BatchBest :=
  braceletLoop f b (codes.length / b + 1) codes ⟨none, ⊥, 0⟩

/-- Chunking performed by `_necklace_chunk` (fuel-driven so that it stays
structurally recursive): full chunks of `b` codes in stream order, and after
the generator is exhausted the final `yield chunk[:i]` emits the partial
remainder — which is EMPTY whenever the stream length is an exact multiple
of `b` (the guard in the source is `i < chunksize[0]`, which also fires at
`i = 0`). -/
def necklaceChunksGo : ℕ → ℕ → List Code → List (List Code)
  | 0, _, stream => [stream]
  | n + 1, b, stream =>
    if b ≤ stream.length ∧ 0 < b then
      stream.take b :: necklaceChunksGo n b (stream.drop b)
    else [stream]

/-- The chunk sequence `_necklace_chunk(necklaces, (batch_size, L))` yields
for a generator whose output is `stream`. -/
def necklaceChunks (b : ℕ) (stream : List Code) : List (List Code) :=
  necklaceChunksGo stream.length b stream

/-- Search of one length in `necklace`: the driver draws
`ncodes // batch_size + 1` chunks, which is exactly the number of chunks
`_necklace_chunk` yields (`necklaceChunks_length`), and applies the scored
strict-improvement argmax update to each; an empty final chunk makes
`np.argmax` raise (`none`). -/
def necklaceLength (f : Code → ℚ) (b : ℕ) (stream : List Code) : Option BatchBest :=
  (necklaceChunks b stream).foldlM (fun s batch => batchUpdate f batch s) ⟨none, ⊥, 0⟩

/-- Observable outcome of a range driver (`bracelet` / `necklace`): archiver
update events in order, total accepted strict improvements (ghost), and
whether the run completed without an exception. -/
structure RangeOut where
  updates : List ArchiveUpdate
  improvements : ℕ
  ok : Bool
deriving DecidableEq

/-- Shared outer loop of `bracelet` and `necklace` — `for L in range(K, L+1)`:
for each length, derive `k = int(L * density)`, run the per-length batched
search, and issue the SINGLE archiver update
`f.update(name, code_best, score_best, weight=k)` after the length's loop
finishes.  A per-length exception aborts the run; updates already issued
survive (the `with Archiver(...)` block closes the archiver). -/
def rangeGo (name : String) (density : ℚ) (runLen : ℕ → ℕ → Option BatchBest) :
    List ℕ → RangeOut → RangeOut
  | [], out => out
  | n :: rest, out =>
    let k := (pyInt ((n : ℚ) * density)).toNat
    match runLen n k with
    | none => { out with ok := false }
    | some s =>
      rangeGo name density runLen rest
        { out with
          updates := out.updates ++ [⟨name, s.codeBest, s.scoreBest, k, none⟩]
          improvements := out.improvements + s.improvements }

/-- The `bracelet` driver: `gen n k` is the externally generated list
`bracelet_fc(n, 2, [n - k, k])` (its source is not under `src/`); `dir` is
only handed to the `Archiver` constructor. -/
def braceletDriver (K L : ℕ) (dir name : String) (f : Code → ℚ) (density : ℚ)
    (b : ℕ) (gen : ℕ → ℕ → List Code) : RangeOut :=
  rangeGo name density (fun n k => braceletLength f b (gen n k))
    (List.range' K (L + 1 - K)) ⟨[], 0, true⟩

/-- The `necklace` driver: `gen n k` is the code list of the external
`sage.all.Necklaces([n - k, k])` generator (shifted to 0/1 content by the
`chunk - 1` in `_necklace_chunk`); `dir` is only handed to the archiver. -/
def necklaceDriver (K L : ℕ) (dir name : String) (f : Code → ℚ) (density : ℚ)
    (b : ℕ) (gen : ℕ → ℕ → List Code) : RangeOut :=
  rangeGo name density (fun n k => necklaceLength f b (gen n k))
    (List.range' K (L + 1 - K)) ⟨[], 0, true⟩

/-- One candidate of the streaming strict-improvement tracker: replace the
best pair only on a strict improvement. -/
def stepBest (f : Code → ℚ) (acc : Option Code × WithBot ℚ) (c : Code) :
    Option Code × WithBot ℚ :=
  if acc.2 < ((f c : ℚ) : WithBot ℚ) then (some c, ((f c : ℚ) : WithBot ℚ)) else acc

/-- Reference spec of the streaming strict-improvement tracker: fold the
candidate list left to right with `stepBest`. -/
def runBest (f : Code → ℚ) (init : Option Code × WithBot ℚ) (l : List Code) :
    Option Code × WithBot ℚ :=
  l.foldl (stepBest f) init

/-- A simple concrete objective used for concrete evaluations: the weight of
the code, as a rational. -/
def wObj : Code → ℚ := fun c => (weight c : ℚ)

/-! ### Combinatorics of the raw-combination enumeration -/

/-- The combination enumeration has exactly `C(|xs|, k)` entries. -/
theorem combosAux_length : ∀ (xs : List ℕ) (k : ℕ),
    (combosAux xs k).length = Nat.choose xs.length k
  | _, 0 => by simp [combosAux]
  | [], k + 1 => by simp [combosAux]
  | x :: xs, k + 1 => by
    simp [combosAux, combosAux_length xs k, combosAux_length xs (k + 1),
      Nat.choose_succ_succ]

/-- Every enumerated combination is a length-`k` sublist of the ground list. -/
theorem mem_combosAux : ∀ (xs : List ℕ) (k : ℕ) (l : List ℕ),
    l ∈ combosAux xs k → l.Sublist xs ∧ l.length = k
  | xs, 0, l => by
    intro h
    simp only [combosAux, List.mem_singleton] at h
    subst h
    exact ⟨List.nil_sublist xs, rfl⟩
  | [], k + 1, l => by intro h; simp [combosAux] at h
  | x :: xs, k + 1, l => by
    intro h
    simp only [combosAux, List.mem_append, List.mem_map] at h
    rcases h with ⟨l2, hl2, rfl⟩ | h
    · obtain ⟨hs, hlen⟩ := mem_combosAux xs k l2 hl2
      exact ⟨hs.cons₂ x, by simp [hlen]⟩
    · obtain ⟨hs, hlen⟩ := mem_combosAux xs (k + 1) l h
      exact ⟨hs.cons x, hlen⟩

/-- Every length-`k` sublist of the ground list is enumerated. -/
theorem sublist_mem_combosAux : ∀ {xs l : List ℕ}, l.Sublist xs →
    l ∈ combosAux xs l.length := by
  intro xs l h
  induction h with
  | slnil => exact List.mem_singleton.mpr rfl
  | @cons l1 l2 x h ih =>
    cases l1 with
    | nil => exact List.mem_singleton.mpr rfl
    | cons a t =>
      simp only [combosAux, List.length_cons, List.mem_append]
      exact Or.inr ih
  | @cons₂ l1 l2 x h ih =>
    simp only [combosAux, List.length_cons, List.mem_append, List.mem_map]
    exact Or.inl ⟨l1, ih, rfl⟩

theorem length_indicesToCode (L : ℕ) (l : List ℕ) : (indicesToCode L l).length = L := by
  simp [indicesToCode]

/-- Counting `true` in a mapped boolean list is counting satisfied positions. -/
theorem count_true_map (g : ℕ → Bool) : ∀ xs : List ℕ,
    (xs.map g).count true = xs.countP g
  | [] => rfl
  | x :: xs => by
    simp only [List.map_cons, List.count_cons, List.countP_cons, count_true_map g xs]
    cases g x <;> rfl

/-- In a duplicate-free list, the number of positions belonging to a sublist
is the sublist's length. -/
theorem countP_mem_sublist : ∀ {s t : List ℕ}, s.Sublist t → t.Nodup →
    (t.countP fun y => decide (y ∈ s)) = s.length := by
  intro s t h
  induction h with
  | slnil => intro _; rfl
  | @cons l1 l2 x h ih =>
    intro hnd
    rw [List.nodup_cons] at hnd
    have hx : x ∉ l1 := fun hmem => hnd.1 (h.subset hmem)
    simp [List.countP_cons, hx, ih hnd.2]
  | @cons₂ l1 l2 x h ih =>
    intro hnd
    rw [List.nodup_cons] at hnd
    have hcong : (List.countP (fun y => decide (y ∈ x :: l1)) l2) =
        List.countP (fun y => decide (y ∈ l1)) l2 :=
      List.countP_congr (fun a ha => by
        have hax : a ≠ x := fun hax => hnd.1 (hax ▸ ha)
        simp [List.mem_cons, hax])
    rw [List.countP_cons, hcong, ih hnd.2]
    simp

/-- Weight of the code built from a set of one-positions drawn from
`range L`. -/
theorem weight_indicesToCode {L : ℕ} {l : List ℕ} (h : l.Sublist (List.range L)) :
    weight (indicesToCode L l) = l.length := by
  unfold weight indicesToCode
  rw [count_true_map]
  exact countP_mem_sublist h (List.nodup_range L)

theorem not_mem_map_succ (l : List ℕ) : (0 : ℕ) ∉ l.map Nat.succ := by
  simp

/-- Shifting one-positions by one corresponds to prepending a zero bit. -/
theorem indicesToCode_shift (n : ℕ) (l : List ℕ) :
    indicesToCode (n + 1) (l.map Nat.succ) = false :: indicesToCode n l := by
  unfold indicesToCode
  rw [List.range_succ_eq_map, List.map_cons, List.map_map]
  refine congrArg₂ _ (by simp) ?_
  refine List.map_congr_left fun i _ => ?_
  simp [Function.comp]

/-- Adding position zero on top of shifted positions prepends a one bit. -/
theorem indicesToCode_zero_cons (n : ℕ) (l : List ℕ) :
    indicesToCode (n + 1) (0 :: l.map Nat.succ) = true :: indicesToCode n l := by
  unfold indicesToCode
  rw [List.range_succ_eq_map, List.map_cons, List.map_map]
  refine congrArg₂ _ (by simp) ?_
  refine List.map_congr_left fun i _ => ?_
  simp [Function.comp]

/-- Completeness of the position representation: every binary code arises
from a sorted duplicate-free set of one-positions below its length. -/
theorem exists_indices : ∀ c : Code, ∃ l : List ℕ,
    l.Sublist (List.range c.length) ∧ l.length = weight c ∧
      indicesToCode c.length l = c
  | [] => ⟨[], by simp [indicesToCode, weight]⟩
  | b :: c => by
    obtain ⟨l, hs, hlen, hcode⟩ := exists_indices c
    have hmap : (l.map Nat.succ).Sublist ((List.range c.length).map Nat.succ) :=
      hs.map Nat.succ
    cases b with
    | false =>
      refine ⟨l.map Nat.succ, ?_, ?_, ?_⟩
      · rw [List.length_cons, List.range_succ_eq_map]
        exact hmap.cons 0
      · simp [hlen, weight, List.count_cons]
      · rw [List.length_cons, indicesToCode_shift, hcode]
    | true =>
      refine ⟨0 :: l.map Nat.succ, ?_, ?_, ?_⟩
      · rw [List.length_cons, List.range_succ_eq_map]
        exact hmap.cons₂ 0
      · simp [hlen, weight, List.count_cons]
      · rw [List.length_cons, indicesToCode_zero_cons, hcode]

/-! ### The streaming strict-improvement tracker and the batched argmax -/

theorem runBest_cons (f : Code → ℚ) (init : Option Code × WithBot ℚ) (c : Code)
    (l : List Code) : runBest f init (c :: l) = runBest f (stepBest f init c) l := rfl

theorem runBest_append (f : Code → ℚ) (init : Option Code × WithBot ℚ)
    (l1 l2 : List Code) : runBest f init (l1 ++ l2) = runBest f (runBest f init l1) l2 :=
  List.foldl_append _ _ _ _

/-- If nothing in the list beats the current score, the tracker is frozen. -/
theorem runBest_no_improve (f : Code → ℚ) : ∀ (l : List Code) (cb : Option Code)
    (sb : WithBot ℚ), (∀ x ∈ l, ((f x : ℚ) : WithBot ℚ) ≤ sb) →
    runBest f (cb, sb) l = (cb, sb)
  | [], _, _, _ => rfl
  | c :: l, cb, sb, h => by
    have hc : ¬ sb < ((f c : ℚ) : WithBot ℚ) := not_lt.2 (h c (List.mem_cons_self c l))
    rw [runBest_cons]
    have hstep : stepBest f (cb, sb) c = (cb, sb) := by
      simp only [stepBest]
      rw [if_neg hc]
    rw [hstep]
    exact runBest_no_improve f l cb sb fun x hx => h x (List.mem_cons_of_mem c hx)

/-- Characterisation of the strict-improvement tracker: whenever some
candidate beats the initial score, the tracker returns the FIRST candidate
attaining the maximum — everything before it scores strictly lower,
everything after it scores no higher. -/
theorem runBest_spec (f : Code → ℚ) : ∀ (l : List Code) (cb : Option Code) (sb : WithBot ℚ),
    (∃ x ∈ l, sb < ((f x : ℚ) : WithBot ℚ)) →
    ∃ pre c post, l = pre ++ c :: post ∧ sb < ((f c : ℚ) : WithBot ℚ) ∧
      (∀ x ∈ pre, ((f x : ℚ) : WithBot ℚ) < ((f c : ℚ) : WithBot ℚ)) ∧
      (∀ x ∈ post, ((f x : ℚ) : WithBot ℚ) ≤ ((f c : ℚ) : WithBot ℚ)) ∧
      runBest f (cb, sb) l = (some c, ((f c : ℚ) : WithBot ℚ))
  | [], cb, sb, h => by simp at h
  | a :: l, cb, sb, h => by
    by_cases ha : sb < ((f a : ℚ) : WithBot ℚ)
    · have hrun : runBest f (cb, sb) (a :: l)
          = runBest f (some a, ((f a : ℚ) : WithBot ℚ)) l := by
        rw [runBest_cons]
        have hstep : stepBest f (cb, sb) a = (some a, ((f a : ℚ) : WithBot ℚ)) := by
          simp only [stepBest]
          rw [if_pos ha]
        rw [hstep]
      by_cases hrest : ∃ y ∈ l, ((f a : ℚ) : WithBot ℚ) < ((f y : ℚ) : WithBot ℚ)
      · obtain ⟨pre, c, post, hsplit, hac, hpre, hpost, hrb⟩ :=
          runBest_spec f l (some a) ((f a : ℚ)) hrest
        refine ⟨a :: pre, c, post, by rw [hsplit]; rfl, lt_trans ha hac, ?_, hpost, ?_⟩
        · intro x hx
          rcases List.mem_cons.1 hx with rfl | hx
          · exact hac
          · exact hpre x hx
        · rw [hrun, hrb]
      · push_neg at hrest
        refine ⟨[], a, l, rfl, ha, by simp, hrest, ?_⟩
        rw [hrun]
        exact runBest_no_improve f l (some a) _ hrest
    · have hl : ∃ x ∈ l, sb < ((f x : ℚ) : WithBot ℚ) := by
        obtain ⟨x, hx, hsx⟩ := h
        rcases List.mem_cons.1 hx with rfl | hx
        · exact absurd hsx ha
        · exact ⟨x, hx, hsx⟩
      obtain ⟨pre, c, post, hsplit, hsc, hpre, hpost, hrb⟩ := runBest_spec f l cb sb hl
      refine ⟨a :: pre, c, post, by rw [hsplit]; rfl, hsc, ?_, hpost, ?_⟩
      · intro x hx
        rcases List.mem_cons.1 hx with rfl | hx
        · exact lt_of_le_of_lt (not_lt.1 ha) hsc
        · exact hpre x hx
      · rw [runBest_cons]
        have hstep : stepBest f (cb, sb) a = (cb, sb) := by
          simp only [stepBest]
          rw [if_neg ha]
        rw [hstep]
        exact hrb

/-- The batch-level first-maximum update (`np.argmax` plus a single strict
comparison against the running best) computes exactly what the candidate-by-
candidate strict-improvement fold computes. -/
theorem argmaxFrom_runBest (f : Code → ℚ) : ∀ (rest : List Code) (bc : Code) (bs : ℚ)
    (cb : Option Code) (sb : WithBot ℚ),
    (if sb < (((argmaxFrom bc bs (rest.map (fun c => (c, f c)))).2 : ℚ) : WithBot ℚ) then
        (some (argmaxFrom bc bs (rest.map (fun c => (c, f c)))).1,
          (((argmaxFrom bc bs (rest.map (fun c => (c, f c)))).2 : ℚ) : WithBot ℚ))
      else (cb, sb))
      = runBest f
          (if sb < ((bs : ℚ) : WithBot ℚ) then (some bc, ((bs : ℚ) : WithBot ℚ)) else (cb, sb))
          rest
  | [], bc, bs, cb, sb => rfl
  | x :: rest, bc, bs, cb, sb => by
    rw [runBest_cons]
    simp only [List.map_cons, argmaxFrom]
    by_cases hbx : bs < f x
    · rw [if_pos hbx, argmaxFrom_runBest f rest x (f x) cb sb]
      congr 1
      by_cases hsb : sb < ((bs : ℚ) : WithBot ℚ)
      · have h1 : ((bs : ℚ) : WithBot ℚ) < ((f x : ℚ) : WithBot ℚ) :=
          WithBot.coe_lt_coe.2 hbx
        rw [if_pos hsb, if_pos (lt_trans hsb h1)]
        simp only [stepBest]
        rw [if_pos h1]
      · rw [if_neg hsb]
        simp only [stepBest]
    · rw [if_neg hbx, argmaxFrom_runBest f rest bc bs cb sb]
      congr 1
      have hxb : ((f x : ℚ) : WithBot ℚ) ≤ ((bs : ℚ) : WithBot ℚ) :=
        WithBot.coe_le_coe.2 (not_lt.1 hbx)
      by_cases hsb : sb < ((bs : ℚ) : WithBot ℚ)
      · rw [if_pos hsb]
        simp only [stepBest]
        rw [if_neg (not_lt.2 hxb)]
      · rw [if_neg hsb]
        simp only [stepBest]
        rw [if_neg (not_lt.2 (le_trans hxb (not_lt.1 hsb)))]

/-- Spec of one non-empty `bfs` batch: the best pair evolves as the
candidate-by-candidate tracker prescribes, and the searched count grows by
the batch size. -/
theorem bfsBatch_spec (f : Code → ℚ) (fn : Option String) (c0 : Code) (cs : List Code)
    (s : BfsState) :
    ((bfsBatch f fn (c0 :: cs) s).codeBest, (bfsBatch f fn (c0 :: cs) s).scoreBest)
        = runBest f (s.codeBest, s.scoreBest) (c0 :: cs)
      ∧ (bfsBatch f fn (c0 :: cs) s).numSearched = s.numSearched + (c0 :: cs).length
      ∧ s.scoreBest ≤ (bfsBatch f fn (c0 :: cs) s).scoreBest := by
  have hG := argmaxFrom_runBest f cs c0 (f c0) s.codeBest s.scoreBest
  have hcons : runBest f (s.codeBest, s.scoreBest) (c0 :: cs)
      = runBest f (stepBest f (s.codeBest, s.scoreBest) c0) cs := runBest_cons ..
  have hstep : stepBest f (s.codeBest, s.scoreBest) c0
      = if s.scoreBest < ((f c0 : ℚ) : WithBot ℚ) then
          (some c0, ((f c0 : ℚ) : WithBot ℚ)) else (s.codeBest, s.scoreBest) := rfl
  simp only [bfsBatch]
  by_cases h : s.scoreBest <
      (((argmaxFrom c0 (f c0) (cs.map (fun c => (c, f c)))).2 : ℚ) : WithBot ℚ)
  · rw [if_pos h] at hG ⊢
    refine ⟨?_, rfl, ?_⟩
    · rw [← hstep, ← hcons] at hG
      exact hG
    · exact le_of_lt h
  · rw [if_neg h] at hG ⊢
    refine ⟨?_, rfl, le_refl _⟩
    rw [← hstep, ← hcons] at hG
    exact hG

/-- Spec of the whole `bfs` loop, provided the iteration budget suffices to
drain the generator: the final best pair is the strict-improvement fold of
all enumerated codes, and the searched count is the full enumeration
length. -/
theorem bfsLoop_spec (f : Code → ℚ) (L : ℕ) (fn : Option String) :
    ∀ (n m : ℕ) (gen : List (List ℕ)) (s : BfsState), 1 ≤ m → gen.length ≤ n * m →
      ((bfsLoop f L m fn n gen s).codeBest, (bfsLoop f L m fn n gen s).scoreBest)
          = runBest f (s.codeBest, s.scoreBest) (gen.map (indicesToCode L))
        ∧ (bfsLoop f L m fn n gen s).numSearched = s.numSearched + gen.length
  | 0, m, gen, s, hm, hlen => by
    have hnil : gen = [] := List.eq_nil_of_length_eq_zero (by omega)
    subst hnil
    exact ⟨rfl, by simp [bfsLoop]⟩
  | n + 1, m, gen, s, hm, hlen => by
    cases gen with
    | nil => simp [bfsLoop, runBest]
    | cons g gt =>
      obtain ⟨m2, rfl⟩ : ∃ m2, m = m2 + 1 := ⟨m - 1, by omega⟩
      have htake : (g :: gt).take (m2 + 1) = g :: gt.take m2 := rfl
      have hne : ¬ (g :: gt).take (m2 + 1) = [] := by
        rw [htake]
        exact List.cons_ne_nil _ _
      have hbody : bfsLoop f L (m2 + 1) fn (n + 1) (g :: gt) s
          = bfsLoop f L (m2 + 1) fn n ((g :: gt).drop (m2 + 1))
              (bfsBatch f fn (((g :: gt).take (m2 + 1)).map (indicesToCode L)) s) := by
        simp only [bfsLoop]
        rw [if_neg hne]
      set s2 := bfsBatch f fn (((g :: gt).take (m2 + 1)).map (indicesToCode L)) s with hs2
      have hdroplen : ((g :: gt).drop (m2 + 1)).length ≤ n * (m2 + 1) := by
        rw [List.length_drop]
        rw [Nat.succ_mul] at hlen
        omega
      have hrec := bfsLoop_spec f L fn n (m2 + 1) ((g :: gt).drop (m2 + 1)) s2 hm hdroplen
      have hbatch := bfsBatch_spec f fn (indicesToCode L g)
        ((gt.take m2).map (indicesToCode L)) s
      have hmapb : ((g :: gt).take (m2 + 1)).map (indicesToCode L)
          = indicesToCode L g :: (gt.take m2).map (indicesToCode L) := by
        rw [htake, List.map_cons]
      rw [hmapb] at hs2
      constructor
      · rw [hbody, hrec.1, hs2, hbatch.1, ← runBest_append, ← hmapb,
          ← List.map_append, List.take_append_drop]
      · rw [hbody, hrec.2, hs2, hbatch.2.1]
        have hlens : ((g :: gt).take (m2 + 1)).length + ((g :: gt).drop (m2 + 1)).length
            = (g :: gt).length := by
          rw [List.length_take, List.length_drop]
          omega
        rw [htake] at hlens
        simp only [List.length_cons, List.length_map] at *
        omega

/-- Ceiling-division budget: `ceil(C / m) * m` covers `C`. -/
theorem le_ceil_mul (C m : ℕ) (hm : 1 ≤ m) : C ≤ ((C + m - 1) / m) * m := by
  have h : C + m - 1 < (C + m - 1) / m * m + m := Nat.lt_div_mul_add (by omega)
  have e : C + m - 1 + 1 = C + m := Nat.sub_add_cancel (by omega)
  have h2 : C + m ≤ (C + m - 1) / m * m + m := by
    rw [← e]
    exact h
  exact Nat.le_of_add_le_add_right h2

theorem combinations_length (L k : ℕ) : (combinations L k).length = Nat.choose L k := by
  rw [combinations, combosAux_length, List.length_range]

theorem pyInt_of_nonneg {q : ℚ} (h : 0 ≤ q) : pyInt q = ⌊q⌋ := if_pos h

/-- With `density < 1` and `L ≥ 1`, the derived weight is below `L`. -/
theorem pyInt_weight_lt {L : ℕ} {density : ℚ} (hL : 1 ≤ L) (h0 : 0 < density)
    (h1 : density < 1) : (pyInt ((L : ℚ) * density)).toNat < L := by
  have hLpos : (0 : ℚ) < (L : ℚ) := by
    exact_mod_cast Nat.cast_pos.mpr (show 0 < L by omega)
  have hnn : (0 : ℚ) ≤ (L : ℚ) * density := mul_nonneg hLpos.le h0.le
  rw [pyInt_of_nonneg hnn]
  have hflt : ⌊(L : ℚ) * density⌋ < (L : ℤ) := by
    rw [Int.floor_lt]
    push_cast
    calc (L : ℚ) * density < (L : ℚ) * 1 := by
          exact mul_lt_mul_of_pos_left h1 hLpos
    _ = (L : ℚ) := mul_one _
  omega

/-! ### Master spec of `bfs` and further driver lemmas -/

/-- For `L ≥ 1` and density in `(0,1)`, regardless of `batch_size`, `bfs`
drains the whole enumeration: the final best pair is the candidate-by-
candidate strict-improvement fold of the full enumeration and the searched
count is `C(L, k)`. -/
theorem bfs_master (f : Code → ℚ) (L : ℕ) (density : ℚ) (bs : ℤ) (fn : Option String)
    (hL : 1 ≤ L) (h0 : 0 < density) (h1 : density < 1) :
    (((bfs f L density bs fn).codeBest, (bfs f L density bs fn).scoreBest)
        = runBest f (none, ⊥)
            ((combinations L ((pyInt ((L : ℚ) * density)).toNat)).map (indicesToCode L)))
      ∧ (bfs f L density bs fn).numSearched
          = Nat.choose L ((pyInt ((L : ℚ) * density)).toNat) := by
  set k := (pyInt ((L : ℚ) * density)).toNat with hk
  have hkL : k < L := pyInt_weight_lt hL h0 h1
  have hm : 1 ≤ (max (Int.fdiv bs (L : ℤ)) 1).toNat := by
    have h2 : (1 : ℤ) ≤ max (Int.fdiv bs (L : ℤ)) 1 := le_max_right _ _
    omega
  set m := (max (Int.fdiv bs (L : ℤ)) 1).toNat with hm2
  have hfact : Nat.factorial L / (Nat.factorial k * Nat.factorial (L - k))
      = Nat.choose L k := (Nat.choose_eq_factorial_div_factorial (le_of_lt hkL)).symm
  have hbfs : bfs f L density bs fn
      = bfsLoop f L m fn
          ((Nat.factorial L / (Nat.factorial k * Nat.factorial (L - k)) + m - 1) / m)
          (combinations L k) ⟨none, ⊥, 0, []⟩ := rfl
  have hbudget : (combinations L k).length
      ≤ ((Nat.factorial L / (Nat.factorial k * Nat.factorial (L - k)) + m - 1) / m) * m := by
    rw [hfact, combinations_length]
    exact le_ceil_mul _ _ hm
  have hloop := bfsLoop_spec f L fn
    ((Nat.factorial L / (Nat.factorial k * Nat.factorial (L - k)) + m - 1) / m) m
    (combinations L k) ⟨none, ⊥, 0, []⟩ hm hbudget
  constructor
  · rw [hbfs]
    exact hloop.1
  · rw [hbfs, hloop.2, combinations_length]
    simp

/-- Archiver-update behaviour of one `lyndon` candidate step: the updates
list grows by exactly the new best record at the very step where a kept word
strictly improves its length's best score, and is untouched otherwise. -/
theorem lyndonStep_updates_eq (K : ℕ) (allowed : ℕ → ℕ) (nm : String) (f : Code → ℚ)
    (s : LyndonState) (w : Code) :
    (lyndonStep K allowed nm f s w).updates =
      if (K ≤ w.length ∧ weight w = allowed w.length)
          ∧ s.scoreBest w.length < ((f w : ℚ) : WithBot ℚ) then
        s.updates ++ [⟨nm, some w, ((f w : ℚ) : WithBot ℚ), allowed w.length, none⟩]
      else s.updates := by
  by_cases hf : K ≤ w.length ∧ weight w = allowed w.length
  · by_cases hi : s.scoreBest w.length < ((f w : ℚ) : WithBot ℚ)
    · rw [if_pos ⟨hf, hi⟩]
      simp only [lyndonStep]
      rw [if_pos hf, if_pos hi]
    · rw [if_neg (fun h => hi h.2)]
      simp only [lyndonStep]
      rw [if_pos hf, if_neg hi]
  · rw [if_neg (fun h => hf h.1)]
    simp only [lyndonStep]
    rw [if_neg hf]

/-- Every update issued by `rangeGo` adds exactly one entry per completed
length. -/
theorem rangeGo_ok_length (nm : String) (density : ℚ) (runLen : ℕ → ℕ → Option BatchBest) :
    ∀ (ls : List ℕ) (out : RangeOut), (rangeGo nm density runLen ls out).ok = true →
      (rangeGo nm density runLen ls out).updates.length = out.updates.length + ls.length
  | [], out, _ => by simp [rangeGo]
  | n :: rest, out, hok => by
    rw [rangeGo] at hok ⊢
    cases hr : runLen n ((pyInt ((n : ℚ) * density)).toNat) with
    | none =>
      rw [hr] at hok
      simp at hok
    | some st =>
      rw [hr] at hok
      have hok2 : (rangeGo nm density runLen rest
          { updates := out.updates ++ [⟨nm, st.codeBest, st.scoreBest,
              (pyInt ((n : ℚ) * density)).toNat, none⟩],
            improvements := out.improvements + st.improvements, ok := out.ok }).ok
          = true := hok
      have hrec := rangeGo_ok_length nm density runLen rest _ hok2
      show (rangeGo nm density runLen rest
          { updates := out.updates ++ [⟨nm, st.codeBest, st.scoreBest,
              (pyInt ((n : ℚ) * density)).toNat, none⟩],
            improvements := out.improvements + st.improvements, ok := out.ok }).updates.length
          = out.updates.length + (n :: rest).length
      rw [hrec]
      simp only [List.length_append, List.length_cons, List.length_nil]
      omega

/-- `rangeGo` preserves a boolean invariant of the updates list, since every
appended entry carries the objective name and no searched count. -/
theorem rangeGo_updates_all (nm : String) (density : ℚ) (runLen : ℕ → ℕ → Option BatchBest)
    (P : ArchiveUpdate → Bool)
    (hP : ∀ (c : Option Code) (sc : WithBot ℚ) (k : ℕ), P ⟨nm, c, sc, k, none⟩ = true) :
    ∀ (ls : List ℕ) (out : RangeOut), out.updates.all P = true →
      (rangeGo nm density runLen ls out).updates.all P = true
  | [], out, h => by simpa [rangeGo] using h
  | n :: rest, out, h => by
    rw [rangeGo]
    cases hr : runLen n ((pyInt ((n : ℚ) * density)).toNat) with
    | none => exact h
    | some st =>
      refine rangeGo_updates_all nm density runLen P hP rest _ ?_
      simp only [List.all_append, h, List.all_cons, List.all_nil, Bool.and_true,
        Bool.true_and]
      exact hP st.codeBest st.scoreBest _

/-- `lyndonRun` preserves a boolean invariant of the updates list, since
every appended entry carries the objective name and no searched count. -/
theorem lyndonFold_updates_all (K : ℕ) (allowed : ℕ → ℕ) (nm : String) (f : Code → ℚ)
    (P : ArchiveUpdate → Bool)
    (hP : ∀ (c : Option Code) (sc : WithBot ℚ) (k : ℕ), P ⟨nm, c, sc, k, none⟩ = true) :
    ∀ (stream : List Code) (s : LyndonState), s.updates.all P = true →
      ((stream.foldl (lyndonStep K allowed nm f) s).updates.all P) = true
  | [], s, h => h
  | w :: stream, s, h => by
    rw [List.foldl_cons]
    refine lyndonFold_updates_all K allowed nm f P hP stream _ ?_
    rw [lyndonStep_updates_eq]
    by_cases hc : (K ≤ w.length ∧ weight w = allowed w.length)
        ∧ s.scoreBest w.length < ((f w : ℚ) : WithBot ℚ)
    · rw [if_pos hc]
      simp only [List.all_append, h, List.all_cons, List.all_nil, Bool.and_true,
        Bool.true_and]
      exact hP (some w) _ _
    · rw [if_neg hc]
      exact h

/-- The chunk list `_necklace_chunk` yields has exactly
`len // batch_size + 1` entries — the number of draws the `necklace` driver
performs. -/
theorem necklaceChunksGo_length : ∀ (n b : ℕ) (s : List Code), 0 < b → s.length ≤ n →
    (necklaceChunksGo n b s).length = s.length / b + 1
  | 0, b, s, _, hn => by
    have hs : s = [] := List.eq_nil_of_length_eq_zero (by omega)
    subst hs
    simp [necklaceChunksGo]
  | n + 1, b, s, hb, hn => by
    by_cases h : b ≤ s.length ∧ 0 < b
    · have hrec := necklaceChunksGo_length n b (s.drop b) hb
        (by rw [List.length_drop]; omega)
      simp only [necklaceChunksGo, if_pos h, List.length_cons]
      rw [hrec, List.length_drop, Nat.div_eq_sub_div hb h.1]
    · have hlt : s.length < b := by
        rcases not_and_or.1 h with h2 | h2
        · omega
        · omega
      simp only [necklaceChunksGo, if_neg h, List.length_cons, List.length_nil]
      rw [Nat.div_eq_of_lt hlt]

theorem necklaceChunks_length (b : ℕ) (s : List Code) (hb : 0 < b) :
    (necklaceChunks b s).length = s.length / b + 1 :=
  necklaceChunksGo_length s.length b s hb le_rfl

/-- The non-writing fields of a `bfs` batch do not depend on the filename. -/
theorem bfsBatch_core (f : Code → ℚ) (fn1 fn2 : Option String) (codes : List Code)
    (s1 s2 : BfsState) (h1 : s1.codeBest = s2.codeBest) (h2 : s1.scoreBest = s2.scoreBest)
    (h3 : s1.numSearched = s2.numSearched) :
    (bfsBatch f fn1 codes s1).codeBest = (bfsBatch f fn2 codes s2).codeBest
      ∧ (bfsBatch f fn1 codes s1).scoreBest = (bfsBatch f fn2 codes s2).scoreBest
      ∧ (bfsBatch f fn1 codes s1).numSearched = (bfsBatch f fn2 codes s2).numSearched := by
  cases codes with
  | nil => exact ⟨h1, h2, h3⟩
  | cons c0 rest =>
    simp only [bfsBatch]
    rw [h2]
    by_cases h : s2.scoreBest <
        (((argmaxFrom c0 (f c0) (rest.map (fun c => (c, f c)))).2 : ℚ) : WithBot ℚ)
    · rw [if_pos h, if_pos h]
      exact ⟨rfl, rfl, by simp [h3]⟩
    · rw [if_neg h, if_neg h]
      exact ⟨by simp [h1], by simp [h2], by simp [h3]⟩

/-- The non-writing fields of the whole `bfs` loop do not depend on the
filename. -/
theorem bfsLoop_core (f : Code → ℚ) (L m : ℕ) (fn1 fn2 : Option String) :
    ∀ (n : ℕ) (gen : List (List ℕ)) (s1 s2 : BfsState),
      s1.codeBest = s2.codeBest → s1.scoreBest = s2.scoreBest →
      s1.numSearched = s2.numSearched →
      (bfsLoop f L m fn1 n gen s1).codeBest = (bfsLoop f L m fn2 n gen s2).codeBest
        ∧ (bfsLoop f L m fn1 n gen s1).scoreBest = (bfsLoop f L m fn2 n gen s2).scoreBest
        ∧ (bfsLoop f L m fn1 n gen s1).numSearched = (bfsLoop f L m fn2 n gen s2).numSearched
  | 0, gen, s1, s2, h1, h2, h3 => ⟨h1, h2, h3⟩
  | n + 1, gen, s1, s2, h1, h2, h3 => by
    simp only [bfsLoop]
    by_cases h : gen.take m = []
    · rw [if_pos h, if_pos h]
      exact ⟨h1, h2, h3⟩
    · rw [if_neg h, if_neg h]
      obtain ⟨g1, g2, g3⟩ := bfsBatch_core f fn1 fn2 ((gen.take m).map (indicesToCode L))
        s1 s2 h1 h2 h3
      exact bfsLoop_core f L m fn1 fn2 n (gen.drop m) _ _ g1 g2 g3

/-- The `lyndon` and legacy `find_codes_lyndon` candidate steps act
identically on the shared statistics (best scores, searched counts, scored
trace). -/
theorem lyndon_legacy_step (K : ℕ) (allowed : ℕ → ℕ) (nm dir : String) (f : Code → ℚ)
    (s : LyndonState) (t : LegacyLyndonState) (w : Code)
    (h1 : s.scoreBest = t.scoreBest) (h2 : s.numSearched = t.numSearched)
    (h3 : s.scored = t.scored) :
    (lyndonStep K allowed nm f s w).scoreBest = (legacyLyndonStep K allowed dir f t w).scoreBest
      ∧ (lyndonStep K allowed nm f s w).numSearched
        = (legacyLyndonStep K allowed dir f t w).numSearched
      ∧ (lyndonStep K allowed nm f s w).scored = (legacyLyndonStep K allowed dir f t w).scored := by
  simp only [lyndonStep, legacyLyndonStep]
  by_cases hf : K ≤ w.length ∧ weight w = allowed w.length
  · rw [if_pos hf, if_pos hf]
    by_cases hi : s.scoreBest w.length < ((f w : ℚ) : WithBot ℚ)
    · have hi2 : t.scoreBest w.length < ((f w : ℚ) : WithBot ℚ) := h1 ▸ hi
      rw [if_pos hi, if_pos hi2]
      refine ⟨?_, ?_, ?_⟩ <;> simp [h1, h2, h3]
    · have hi2 : ¬ t.scoreBest w.length < ((f w : ℚ) : WithBot ℚ) := fun hh => hi (h1 ▸ hh)
      rw [if_neg hi, if_neg hi2]
      refine ⟨?_, ?_, ?_⟩ <;> simp [h1, h2, h3]
  · rw [if_neg hf, if_neg hf]
    exact ⟨h1, h2, h3⟩

/-- Fold version of `lyndon_legacy_step` over a whole generator stream. -/
theorem lyndon_legacy_fold (K : ℕ) (allowed : ℕ → ℕ) (nm dir : String) (f : Code → ℚ) :
    ∀ (stream : List Code) (s : LyndonState) (t : LegacyLyndonState),
      s.scoreBest = t.scoreBest → s.numSearched = t.numSearched → s.scored = t.scored →
      (stream.foldl (lyndonStep K allowed nm f) s).scoreBest
          = (stream.foldl (legacyLyndonStep K allowed dir f) t).scoreBest
        ∧ (stream.foldl (lyndonStep K allowed nm f) s).numSearched
          = (stream.foldl (legacyLyndonStep K allowed dir f) t).numSearched
        ∧ (stream.foldl (lyndonStep K allowed nm f) s).scored
          = (stream.foldl (legacyLyndonStep K allowed dir f) t).scored
  | [], s, t, h1, h2, h3 => ⟨h1, h2, h3⟩
  | w :: stream, s, t, h1, h2, h3 => by
    rw [List.foldl_cons, List.foldl_cons]
    obtain ⟨g1, g2, g3⟩ := lyndon_legacy_step K allowed nm dir f s t w h1 h2 h3
    exact lyndon_legacy_fold K allowed nm dir f stream _ _ g1 g2 g3

/-- Statistics effect of a kept word on the `lyndon` driver. -/
theorem lyndonStep_pos_stats (K : ℕ) (allowed : ℕ → ℕ) (nm : String) (f : Code → ℚ)
    (s : LyndonState) (w : Code) (hf : K ≤ w.length ∧ weight w = allowed w.length) :
    (lyndonStep K allowed nm f s w).scored = s.scored ++ [w]
      ∧ (lyndonStep K allowed nm f s w).numSearched w.length
        = s.numSearched w.length + 1 := by
  simp only [lyndonStep]
  rw [if_pos hf]
  by_cases hi : s.scoreBest w.length < ((f w : ℚ) : WithBot ℚ)
  · rw [if_pos hi]
    exact ⟨rfl, Function.update_same _ _ _⟩
  · rw [if_neg hi]
    exact ⟨rfl, Function.update_same _ _ _⟩

/-- A filtered-out word leaves the `lyndon` driver state untouched. -/
theorem lyndonStep_neg (K : ℕ) (allowed : ℕ → ℕ) (nm : String) (f : Code → ℚ)
    (s : LyndonState) (w : Code) (hf : ¬ (K ≤ w.length ∧ weight w = allowed w.length)) :
    lyndonStep K allowed nm f s w = s := by
  simp only [lyndonStep]
  rw [if_neg hf]

/-- Statistics effect of a kept word on the legacy driver. -/
theorem legacyLyndonStep_pos_stats (K : ℕ) (allowed : ℕ → ℕ) (dir : String) (f : Code → ℚ)
    (t : LegacyLyndonState) (w : Code) (hf : K ≤ w.length ∧ weight w = allowed w.length) :
    (legacyLyndonStep K allowed dir f t w).scored = t.scored ++ [w]
      ∧ (legacyLyndonStep K allowed dir f t w).numSearched w.length
        = t.numSearched w.length + 1 := by
  simp only [legacyLyndonStep]
  rw [if_pos hf]
  by_cases hi : t.scoreBest w.length < ((f w : ℚ) : WithBot ℚ)
  · rw [if_pos hi]
    exact ⟨rfl, Function.update_same _ _ _⟩
  · rw [if_neg hi]
    exact ⟨rfl, Function.update_same _ _ _⟩

/-- A filtered-out word leaves the legacy driver state untouched. -/
theorem legacyLyndonStep_neg (K : ℕ) (allowed : ℕ → ℕ) (dir : String) (f : Code → ℚ)
    (t : LegacyLyndonState) (w : Code)
    (hf : ¬ (K ≤ w.length ∧ weight w = allowed w.length)) :
    legacyLyndonStep K allowed dir f t w = t := by
  simp only [legacyLyndonStep]
  rw [if_neg hf]

/-! ### Claim theorems -/

/-- C2: for every `L ≥ 1`, density in `(0,1)` and pure objective returning
finite scores, `bfs` returns a binary code of length `L` and weight
`k = floor(L * density)` whose score equals the maximum over all `C(L, k)`
weight-`k` codes; when several codes attain the maximum, the one earliest
in the lexicographic enumeration order over the positions of the ones (the
order of `combinations`) is returned. -/
theorem c2_bfs_lex_first_optimum (f : Code → ℚ) (L : ℕ) (density : ℚ) (bs : ℤ)
    (fn : Option String) (hL : 1 ≤ L) (h0 : 0 < density) (h1 : density < 1) :
    ∃ c : Code, (bfs f L density bs fn).codeBest = some c
      ∧ (bfs f L density bs fn).scoreBest = ((f c : ℚ) : WithBot ℚ)
      ∧ c.length = L
      ∧ weight c = (pyInt ((L : ℚ) * density)).toNat
      ∧ (∀ c2 : Code, c2.length = L → weight c2 = (pyInt ((L : ℚ) * density)).toNat →
          f c2 ≤ f c)
      ∧ ∃ pre post,
          (combinations L ((pyInt ((L : ℚ) * density)).toNat)).map (indicesToCode L)
            = pre ++ c :: post
          ∧ ∀ c2 ∈ pre, f c2 < f c := by
  obtain ⟨hpair, hcount⟩ := bfs_master f L density bs fn hL h0 h1
  set k := (pyInt ((L : ℚ) * density)).toNat with hk
  have hkL : k < L := pyInt_weight_lt hL h0 h1
  have hlen : ((combinations L k).map (indicesToCode L)).length = Nat.choose L k := by
    rw [List.length_map, combinations_length]
  have hpos : 0 < Nat.choose L k := Nat.choose_pos (le_of_lt hkL)
  obtain ⟨c0, cl0, hcl⟩ : ∃ c0 cl0,
      (combinations L k).map (indicesToCode L) = c0 :: cl0 := by
    cases hc : (combinations L k).map (indicesToCode L) with
    | nil =>
      rw [hc] at hlen
      simp at hlen
      omega
    | cons a t => exact ⟨a, t, rfl⟩
  have hex : ∃ x ∈ (combinations L k).map (indicesToCode L),
      (⊥ : WithBot ℚ) < ((f x : ℚ) : WithBot ℚ) := by
    refine ⟨c0, by rw [hcl]; exact List.mem_cons_self _ _, WithBot.bot_lt_coe _⟩
  obtain ⟨pre, c, post, hsplit, hbc, hpre, hpost, hrb⟩ :=
    runBest_spec f ((combinations L k).map (indicesToCode L)) none ⊥ hex
  rw [hrb] at hpair
  have hcode : (bfs f L density bs fn).codeBest = some c := by
    have h2 := congrArg Prod.fst hpair
    simpa using h2
  have hscore : (bfs f L density bs fn).scoreBest = ((f c : ℚ) : WithBot ℚ) := by
    have h2 := congrArg Prod.snd hpair
    simpa using h2
  have hcmem : c ∈ (combinations L k).map (indicesToCode L) := by
    rw [hsplit]
    exact List.mem_append_right _ (List.mem_cons_self _ _)
  obtain ⟨lc, hlc, rfl⟩ := List.mem_map.1 hcmem
  obtain ⟨hsub, hlenk⟩ := mem_combosAux (List.range L) k lc hlc
  refine ⟨indicesToCode L lc, hcode, hscore, length_indicesToCode L lc, ?_, ?_,
    pre, post, hsplit, ?_⟩
  · rw [weight_indicesToCode hsub, hlenk]
  · intro c2 hlen2 hw2
    obtain ⟨l2, hsub3, hlen3, hcode3⟩ := exists_indices c2
    rw [hlen2] at hsub3 hcode3
    have hmem2 : l2 ∈ combinations L k := by
      have h3 := sublist_mem_combosAux hsub3
      rw [hlen3, hw2] at h3
      exact h3
    have hmem3 : c2 ∈ (combinations L k).map (indicesToCode L) := by
      rw [← hcode3]
      exact List.mem_map_of_mem _ hmem2
    rw [hsplit] at hmem3
    rcases List.mem_append.1 hmem3 with hp | hcp
    · exact le_of_lt (WithBot.coe_lt_coe.1 (hpre _ hp))
    · rcases List.mem_cons.1 hcp with heq | hp
      · rw [heq]
      · exact WithBot.coe_le_coe.1 (hpost _ hp)
  · intro c2 hp
    exact WithBot.coe_lt_coe.1 (hpre _ hp)

/-- Witness for C2: the theorem applied at `L = 2`, density `1/2`,
`batch_size = 8` and the weight objective. -/
theorem c2_bfs_lex_first_optimum_witness :
    ∃ c : Code, (bfs wObj 2 (1/2) 8 none).codeBest = some c
      ∧ (bfs wObj 2 (1/2) 8 none).scoreBest = ((wObj c : ℚ) : WithBot ℚ)
      ∧ c.length = 2
      ∧ weight c = (pyInt (((2 : ℕ) : ℚ) * (1/2))).toNat
      ∧ (∀ c2 : Code, c2.length = 2 → weight c2 = (pyInt (((2 : ℕ) : ℚ) * (1/2))).toNat →
          wObj c2 ≤ wObj c)
      ∧ ∃ pre post,
          (combinations 2 ((pyInt (((2 : ℕ) : ℚ) * (1/2))).toNat)).map (indicesToCode 2)
            = pre ++ c :: post
          ∧ ∀ c2 ∈ pre, wObj c2 < wObj c :=
  c2_bfs_lex_first_optimum wObj 2 (1/2) 8 none (by norm_num) (by norm_num) (by norm_num)

/-- C5: for every `L ≥ 1`, density in `(0,1)` and `batch_size ≥ 1`, `bfs`
terminates after the combination generator is exhausted having scored
exactly `C(L, k)` codes, `k = floor(L * density)`. -/
theorem c5_bfs_searches_all_combinations (f : Code → ℚ) (L : ℕ) (density : ℚ) (bs : ℤ)
    (fn : Option String) (hL : 1 ≤ L) (h0 : 0 < density) (h1 : density < 1)
    (hbs : 1 ≤ bs) :
    (bfs f L density bs fn).numSearched
      = Nat.choose L ((pyInt ((L : ℚ) * density)).toNat) :=
  (bfs_master f L density bs fn hL h0 h1).2

/-- Witness for C5: `L = 4`, density `1/2`, `batch_size = 8`: all
`C(4, 2) = 6` codes are scored. -/
theorem c5_bfs_searches_all_combinations_witness :
    (bfs wObj 4 (1/2) 8 none).numSearched
      = Nat.choose 4 ((pyInt (((4 : ℕ) : ℚ) * (1/2))).toNat) :=
  c5_bfs_searches_all_combinations wObj 4 (1/2) 8 none (by norm_num) (by norm_num)
    (by norm_num) (by norm_num)

/-- C3 counterexample: `bfs` called with the non-positive `batch_size = 0`
does NOT fail before enumeration — it completes, scores all
`C(4, 2) = 6` codes, and writes the output file once; the claimed fail-fast
validation does not exist in the code. -/
theorem c3_counterexample_no_fail_fast :
    (bfs wObj 4 (1/2) 0 (some "out")).numSearched = 6
      ∧ (bfs wObj 4 (1/2) 0 (some "out")).writes.length = 1 := by
  constructor <;> with_unfolding_all decide

/-- C3 amended: a driver called with non-positive `batch_size` does not fail
fast: `bfs` clamps the per-batch count to `max(batch_size // L, 1) = 1` and
runs the search to completion, scoring the entire enumeration of `C(L, k)`
codes (and still writing output on improvements). -/
theorem c3_amended_nonpositive_batch_runs (f : Code → ℚ) (L : ℕ) (density : ℚ)
    (bs : ℤ) (fn : Option String) (hL : 1 ≤ L) (h0 : 0 < density) (h1 : density < 1)
    (hbs : bs ≤ 0) :
    (bfs f L density bs fn).numSearched
      = Nat.choose L ((pyInt ((L : ℚ) * density)).toNat) :=
  (bfs_master f L density bs fn hL h0 h1).2

/-- Witness for the amended C3 at `L = 4`, density `1/2`, `batch_size = 0`. -/
theorem c3_amended_nonpositive_batch_runs_witness :
    (bfs wObj 4 (1/2) 0 (some "out")).numSearched
      = Nat.choose 4 ((pyInt (((4 : ℕ) : ℚ) * (1/2))).toNat) :=
  c3_amended_nonpositive_batch_runs wObj 4 (1/2) 0 (some "out") (by norm_num)
    (by norm_num) (by norm_num) (by norm_num)

/-- C1 counterexample: a `bracelet` run over a single length in which two
strict improvements are accepted (the ghost counter reaches 2) issues
exactly ONE archiver update — written after the length's enumeration
completes — so improvements do not each trigger an immediate update. -/
theorem c1_counterexample_deferred_write :
    (braceletDriver 2 2 "d" "obj" wObj (1/2) 2
        (fun n k => if n = 2 ∧ k = 1 then [[true, true], [false, true], [true, false]]
          else [])).improvements = 2
      ∧ (braceletDriver 2 2 "d" "obj" wObj (1/2) 2
          (fun n k => if n = 2 ∧ k = 1 then [[true, true], [false, true], [true, false]]
            else [])).updates.length = 1
      ∧ (braceletDriver 2 2 "d" "obj" wObj (1/2) 2
          (fun n k => if n = 2 ∧ k = 1 then [[true, true], [false, true], [true, false]]
            else [])).ok = true := by
  refine ⟨?_, ?_, ?_⟩ <;> with_unfolding_all decide

/-- C1 amended: in `lyndon`, every strict improvement of a kept word issues
the archiver update immediately at that candidate step (and no other step
issues one); `bracelet` and `necklace` instead issue exactly one archiver
update per length in the range, after that length's enumeration completes,
regardless of how many improvements occurred. -/
theorem c1_amended_flush_policy :
    (∀ (K : ℕ) (allowed : ℕ → ℕ) (nm : String) (f : Code → ℚ) (s : LyndonState)
        (w : Code),
        (lyndonStep K allowed nm f s w).updates =
          if (K ≤ w.length ∧ weight w = allowed w.length)
              ∧ s.scoreBest w.length < ((f w : ℚ) : WithBot ℚ) then
            s.updates ++ [⟨nm, some w, ((f w : ℚ) : WithBot ℚ), allowed w.length, none⟩]
          else s.updates)
    ∧ (∀ (K L : ℕ) (dir nm : String) (f : Code → ℚ) (density : ℚ) (b : ℕ)
        (gen : ℕ → ℕ → List Code),
        (braceletDriver K L dir nm f density b gen).ok = true →
          (braceletDriver K L dir nm f density b gen).updates.length = L + 1 - K)
    ∧ (∀ (K L : ℕ) (dir nm : String) (f : Code → ℚ) (density : ℚ) (b : ℕ)
        (gen : ℕ → ℕ → List Code),
        (necklaceDriver K L dir nm f density b gen).ok = true →
          (necklaceDriver K L dir nm f density b gen).updates.length = L + 1 - K) := by
  refine ⟨lyndonStep_updates_eq, ?_, ?_⟩
  · intro K L dir nm f density b gen hok
    show (rangeGo nm density (fun n k => braceletLength f b (gen n k))
        (List.range' K (L + 1 - K)) ⟨[], 0, true⟩).updates.length = L + 1 - K
    rw [rangeGo_ok_length nm density _ _ _ hok]
    simp [List.length_range']
  · intro K L dir nm f density b gen hok
    show (rangeGo nm density (fun n k => necklaceLength f b (gen n k))
        (List.range' K (L + 1 - K)) ⟨[], 0, true⟩).updates.length = L + 1 - K
    rw [rangeGo_ok_length nm density _ _ _ hok]
    simp [List.length_range']

/-- Witness for the amended C1: the single-length `bracelet` run of the
counterexample issues exactly `2 + 1 - 2 = 1` update. -/
theorem c1_amended_flush_policy_witness :
    (braceletDriver 2 2 "d" "obj" wObj (1/2) 2
        (fun n k => if n = 2 ∧ k = 1 then [[true, true], [false, true], [true, false]]
          else [])).updates.length = 2 + 1 - 2 :=
  c1_amended_flush_policy.2.1 2 2 "d" "obj" wObj (1/2) 2
    (fun n k => if n = 2 ∧ k = 1 then [[true, true], [false, true], [true, false]]
      else []) (by with_unfolding_all decide)

/-- C4 counterexample: a `lyndon` run that tracks one searched code for
length 1 issues an archiver update that carries NO searched count, although
the spec's write contract requires `searched_count` in every update. -/
theorem c4_counterexample_missing_count :
    ((lyndonRun 1 1 "d" "obj" wObj (1/2) [[false]]).updates.map
        (fun u => u.searchedCount)) = [none]
      ∧ (lyndonRun 1 1 "d" "obj" wObj (1/2) [[false]]).numSearched 1 = 1 := by
  constructor <;> with_unfolding_all decide

/-- C4 amended: every archiver update call a driver makes supplies the
objective name, the code, its score and its weight — and never the running
searched count: all updates of all three archiver-based drivers have
`searchedCount = none` while carrying the objective's name. -/
theorem c4_amended_updates_lack_searched_count :
    (∀ (K L : ℕ) (dir nm : String) (f : Code → ℚ) (density : ℚ) (stream : List Code),
        ((lyndonRun K L dir nm f density stream).updates.all
          (fun u => u.searchedCount.isNone && (u.objectiveName == nm))) = true)
    ∧ (∀ (K L : ℕ) (dir nm : String) (f : Code → ℚ) (density : ℚ) (b : ℕ)
        (gen : ℕ → ℕ → List Code),
        ((braceletDriver K L dir nm f density b gen).updates.all
          (fun u => u.searchedCount.isNone && (u.objectiveName == nm))) = true)
    ∧ (∀ (K L : ℕ) (dir nm : String) (f : Code → ℚ) (density : ℚ) (b : ℕ)
        (gen : ℕ → ℕ → List Code),
        ((necklaceDriver K L dir nm f density b gen).updates.all
          (fun u => u.searchedCount.isNone && (u.objectiveName == nm))) = true) := by
  refine ⟨?_, ?_, ?_⟩
  · intro K L dir nm f density stream
    exact lyndonFold_updates_all K _ nm f _ (fun c sc k => by simp) stream _ rfl
  · intro K L dir nm f density b gen
    exact rangeGo_updates_all nm density _ _ (fun c sc k => by simp) _ _ rfl
  · intro K L dir nm f density b gen
    exact rangeGo_updates_all nm density _ _ (fun c sc k => by simp) _ _ rfl

/-- C6: in both Lyndon-word drivers, a generated word is counted and scored
when its length is at least `K` and its weight equals the expected weight
for its length, and a word failing the filter is skipped entirely — the
whole driver state, hence every per-length statistic and the trace of codes
handed to the objective, is unchanged. -/
theorem c6_lyndon_word_filter (K : ℕ) (allowed : ℕ → ℕ) (nm dir : String)
    (f : Code → ℚ) (s : LyndonState) (t : LegacyLyndonState) (w : Code) :
    ((K ≤ w.length ∧ weight w = allowed w.length) →
        (lyndonStep K allowed nm f s w).scored = s.scored ++ [w]
      ∧ (lyndonStep K allowed nm f s w).numSearched w.length = s.numSearched w.length + 1
      ∧ (legacyLyndonStep K allowed dir f t w).scored = t.scored ++ [w]
      ∧ (legacyLyndonStep K allowed dir f t w).numSearched w.length
          = t.numSearched w.length + 1)
    ∧ (¬ (K ≤ w.length ∧ weight w = allowed w.length) →
        lyndonStep K allowed nm f s w = s ∧ legacyLyndonStep K allowed dir f t w = t) := by
  constructor
  · intro hf
    obtain ⟨h1, h2⟩ := lyndonStep_pos_stats K allowed nm f s w hf
    obtain ⟨h3, h4⟩ := legacyLyndonStep_pos_stats K allowed dir f t w hf
    exact ⟨h1, h2, h3, h4⟩
  · intro hf
    exact ⟨lyndonStep_neg K allowed nm f s w hf, legacyLyndonStep_neg K allowed dir f t w hf⟩

/-- Witness for C6: the word `[false]` (weight 0, the expected weight for
length 1 at density `1/2`) is counted; the word `[true]` (weight 1) is
skipped without any state change. -/
theorem c6_lyndon_word_filter_witness :
    (lyndonStep 1 (fun n => (pyInt ((n : ℚ) * (1/2))).toNat) "obj" wObj
        ⟨fun _ => ⊥, fun _ => 0, [], []⟩ [false]).scored = [] ++ [[false]]
      ∧ lyndonStep 1 (fun n => (pyInt ((n : ℚ) * (1/2))).toNat) "obj" wObj
          ⟨fun _ => ⊥, fun _ => 0, [], []⟩ [true] = ⟨fun _ => ⊥, fun _ => 0, [], []⟩ :=
  ⟨((c6_lyndon_word_filter 1 (fun n => (pyInt ((n : ℚ) * (1/2))).toNat) "obj" "d" wObj
      ⟨fun _ => ⊥, fun _ => 0, [], []⟩ ⟨fun _ => ⊥, fun _ => 0, [], []⟩ [false]).1
      (by with_unfolding_all decide)).1,
    ((c6_lyndon_word_filter 1 (fun n => (pyInt ((n : ℚ) * (1/2))).toNat) "obj" "d" wObj
      ⟨fun _ => ⊥, fun _ => 0, [], []⟩ ⟨fun _ => ⊥, fun _ => 0, [], []⟩ [true]).2
      (by with_unfolding_all decide)).1⟩

/-- C7 counterexample: the claim requires the searched-code count to
strictly increase with every processed batch in EVERY driver, but
`bracelet` and `necklace` maintain no searched count at all.  Exhibited:
the complete observable output of a `bracelet` run over three generated
codes processed in two batches — one archiver update (best code, best
score, weight, `searchedCount = none`), the ghost improvement counter, and
the success flag.  No searched-code count occurs anywhere in the driver's
per-length state (`BatchBest`) or its output, so none can increase. -/
theorem c7_counterexample_no_searched_count :
    braceletDriver 2 2 "d" "obj" wObj (1/2) 2
        (fun n k => if n = 2 ∧ k = 1 then [[true, false], [false, true], [true, true]]
          else [])
      = ⟨[⟨"obj", some [true, true], ((2 : ℚ) : WithBot ℚ), 1, none⟩], 1, true⟩ := by
  with_unfolding_all decide

/-- C7 amended: within one length's search, the recorded best score is
non-decreasing after each scored batch (`bfs`, and the shared bracelet /
necklace batch update — those two drivers maintain no searched count),
respectively after each scored candidate (`lyndon`), and the searched-code
count strictly increases with every processed non-empty batch in `bfs` and
every kept candidate in `lyndon`, the only two drivers that maintain a
searched count. -/
theorem c7_monotonicity :
    (∀ (f : Code → ℚ) (L : ℕ) (fn : Option String) (m : ℕ) (gen : List (List ℕ))
        (s : BfsState), 1 ≤ m → gen ≠ [] →
        s.scoreBest ≤ (bfsLoop f L m fn 1 gen s).scoreBest
          ∧ s.numSearched < (bfsLoop f L m fn 1 gen s).numSearched)
    ∧ (∀ (K : ℕ) (allowed : ℕ → ℕ) (nm : String) (f : Code → ℚ) (s : LyndonState)
        (w : Code),
        (∀ n, s.scoreBest n ≤ (lyndonStep K allowed nm f s w).scoreBest n)
          ∧ ((K ≤ w.length ∧ weight w = allowed w.length) →
              s.numSearched w.length < (lyndonStep K allowed nm f s w).numSearched w.length))
    ∧ (∀ (f : Code → ℚ) (batch : List Code) (s s2 : BatchBest),
        batchUpdate f batch s = some s2 → s.scoreBest ≤ s2.scoreBest) := by
  refine ⟨?_, ?_, ?_⟩
  · intro f L fn m gen s hm hgen
    have hne : ¬ gen.take m = [] := by
      cases gen with
      | nil => exact absurd rfl hgen
      | cons g gt =>
        obtain ⟨m2, rfl⟩ : ∃ m2, m = m2 + 1 := ⟨m - 1, by omega⟩
        exact List.cons_ne_nil _ _
    have hloop1 : bfsLoop f L m fn 1 gen s
        = bfsBatch f fn ((gen.take m).map (indicesToCode L)) s := by
      simp only [bfsLoop]
      rw [if_neg hne]
    obtain ⟨c0, cs, hc⟩ : ∃ c0 cs, (gen.take m).map (indicesToCode L) = c0 :: cs := by
      cases htk : gen.take m with
      | nil => exact absurd htk hne
      | cons a t => exact ⟨indicesToCode L a, t.map (indicesToCode L), rfl⟩
    have hspec := bfsBatch_spec f fn c0 cs s
    rw [hloop1, hc]
    refine ⟨hspec.2.2, ?_⟩
    rw [hspec.2.1]
    simp only [List.length_cons]
    omega
  · intro K allowed nm f s w
    constructor
    · intro n
      simp only [lyndonStep]
      by_cases hf : K ≤ w.length ∧ weight w = allowed w.length
      · rw [if_pos hf]
        by_cases hi : s.scoreBest w.length < ((f w : ℚ) : WithBot ℚ)
        · rw [if_pos hi]
          show s.scoreBest n
            ≤ Function.update s.scoreBest w.length ((f w : ℚ) : WithBot ℚ) n
          by_cases hn : n = w.length
          · subst hn
            rw [Function.update_same]
            exact le_of_lt hi
          · rw [Function.update_noteq hn]
        · rw [if_neg hi]
      · rw [if_neg hf]
    · intro hf
      rw [(lyndonStep_pos_stats K allowed nm f s w hf).2]
      omega
  · intro f batch s s2 h
    cases batch with
    | nil => exact absurd h (by simp [batchUpdate])
    | cons c0 rest =>
      simp only [batchUpdate] at h
      by_cases hi : s.scoreBest <
          (((argmaxFrom c0 (f c0) (rest.map (fun c => (c, f c)))).2 : ℚ) : WithBot ℚ)
      · rw [if_pos hi] at h
        obtain rfl := Option.some.inj h
        exact le_of_lt hi
      · rw [if_neg hi] at h
        obtain rfl := Option.some.inj h
        exact le_refl _

/-- Witness for C7: one `bfs` iteration on a singleton generator, one kept
`lyndon` candidate, and one bracelet batch update, each from the initial
state. -/
theorem c7_monotonicity_witness :
    ((⟨none, ⊥, 0, []⟩ : BfsState).scoreBest
        ≤ (bfsLoop wObj 1 1 none 1 [[0]] ⟨none, ⊥, 0, []⟩).scoreBest
      ∧ (⟨none, ⊥, 0, []⟩ : BfsState).numSearched
        < (bfsLoop wObj 1 1 none 1 [[0]] ⟨none, ⊥, 0, []⟩).numSearched)
    ∧ ((⟨fun _ => ⊥, fun _ => 0, [], []⟩ : LyndonState).numSearched 1
        < (lyndonStep 1 (fun _ => 0) "obj" wObj
            ⟨fun _ => ⊥, fun _ => 0, [], []⟩ [false]).numSearched 1)
    ∧ ((⟨none, ⊥, 0⟩ : BatchBest).scoreBest
        ≤ (⟨some [true], ((1 : ℚ) : WithBot ℚ), 1⟩ : BatchBest).scoreBest) :=
  ⟨c7_monotonicity.1 wObj 1 none 1 [[0]] ⟨none, ⊥, 0, []⟩ (by decide)
      (by simp),
    (c7_monotonicity.2.1 1 (fun _ => 0) "obj" wObj
      ⟨fun _ => ⊥, fun _ => 0, [], []⟩ [false]).2 (by decide),
    c7_monotonicity.2.2 wObj [[true]] ⟨none, ⊥, 0⟩ ⟨some [true], ((1 : ℚ) : WithBot ℚ), 1⟩
      (by with_unfolding_all decide)⟩

/-- C8: running a strategy twice with identical search arguments yields
identical per-length best codes and scores — the output directory cannot
influence `lyndon`, `bracelet` or `necklace` at all, and the dump filename
cannot influence the best code, best score or searched count of `bfs`. -/
theorem c8_two_runs_identical (K L : ℕ) (dir1 dir2 nm : String) (f : Code → ℚ)
    (density : ℚ) (stream : List Code) (b : ℕ) (gen : ℕ → ℕ → List Code) (Lb : ℕ)
    (bs : ℤ) (fn1 fn2 : Option String) :
    lyndonRun K L dir1 nm f density stream = lyndonRun K L dir2 nm f density stream
      ∧ braceletDriver K L dir1 nm f density b gen
        = braceletDriver K L dir2 nm f density b gen
      ∧ necklaceDriver K L dir1 nm f density b gen
        = necklaceDriver K L dir2 nm f density b gen
      ∧ (bfs f Lb density bs fn1).codeBest = (bfs f Lb density bs fn2).codeBest
      ∧ (bfs f Lb density bs fn1).scoreBest = (bfs f Lb density bs fn2).scoreBest
      ∧ (bfs f Lb density bs fn1).numSearched = (bfs f Lb density bs fn2).numSearched := by
  have hcore := bfsLoop_core f Lb ((max (Int.fdiv bs (Lb : ℤ)) 1).toNat) fn1 fn2
    ((Nat.factorial Lb / (Nat.factorial ((pyInt ((Lb : ℚ) * density)).toNat)
        * Nat.factorial (Lb - (pyInt ((Lb : ℚ) * density)).toNat))
      + (max (Int.fdiv bs (Lb : ℤ)) 1).toNat - 1) / (max (Int.fdiv bs (Lb : ℤ)) 1).toNat)
    (combinations Lb ((pyInt ((Lb : ℚ) * density)).toNat))
    ⟨none, ⊥, 0, []⟩ ⟨none, ⊥, 0, []⟩ rfl rfl rfl
  exact ⟨rfl, rfl, rfl, hcore.1, hcore.2.1, hcore.2.2⟩

/-- C9: the final loop iteration of the bracelet and necklace drivers
passes an EMPTY batch to the objective and `np.argmax` whenever the number
of generated codes is an exact multiple of `batch_size` (here 2 codes with
`batch_size = 1`, and 1 code with `batch_size = 1`), which makes
`np.argmax` raise — modelled by `none`; the trailing empty chunk of
`_necklace_chunk` is exhibited, and a non-multiple case completes. -/
theorem c9_exact_multiple_empty_batch :
    braceletLength wObj 1 [[true], [false, true]] = none
      ∧ necklaceLength wObj 1 [[true]] = none
      ∧ necklaceChunks 1 [[true]] = [[[true]], []]
      ∧ (braceletLength wObj 2 [[true], [false, true], [true, true]]).isSome = true := by
  refine ⟨?_, ?_, ?_, ?_⟩ <;> with_unfolding_all decide

/-- C10: given the same `K`, `L` and density and one common objective (the
reference cost function) and the same generator stream — both drivers build
the identical `LengthLimitedLyndonWords(2, L, w)` invocation — the legacy
`find_codes_lyndon` and the newer `lyndon` driver score exactly the same
sequence of codes and produce the same per-length best scores and searched
counts, for any output directories. -/
theorem c10_lyndon_refines_legacy (K L : ℕ) (dir1 dir2 nm : String) (f : Code → ℚ)
    (density : ℚ) (stream : List Code) :
    (lyndonRun K L dir1 nm f density stream).scored
        = (legacyLyndonRun K L dir2 f density stream).scored
      ∧ (lyndonRun K L dir1 nm f density stream).scoreBest
        = (legacyLyndonRun K L dir2 f density stream).scoreBest
      ∧ (lyndonRun K L dir1 nm f density stream).numSearched
        = (legacyLyndonRun K L dir2 f density stream).numSearched := by
  obtain ⟨g1, g2, g3⟩ := lyndon_legacy_fold K
    (fun n => (pyInt ((n : ℚ) * density)).toNat) nm dir2 f stream
    ⟨fun _ => ⊥, fun _ => 0, [], []⟩ ⟨fun _ => ⊥, fun _ => 0, [], []⟩ rfl rfl rfl
  exact ⟨g3, g1, g2⟩

end Jeweler
